import Mathlib

/-!
Verification of the equalization-tuning engine of `pybert/pybert.py`.

The Python source is shallowly embedded over exact rationals: each numpy
array of floats becomes a `List ℚ`, and every arithmetic step of the
source is mirrored one-for-one.  External collaborators that live outside
the single source file of this repository snapshot (`pybert_util.make_ctle`,
`pybert_util.trim_impulse`, `numpy.fft.ifft`, ...) enter as parameters of
the embedded functions, so that the lines that ARE in the source are
modelled exactly while the black boxes stay abstract.
-/

namespace PyBERT

/-- Model of `class TxTapTuner`: one row of the Tx FFE tap tuning table. -/
structure TxTapTuner where
  name : String
  enabled : Bool
  min_val : ℚ
  max_val : ℚ
  value : ℚ
  steps : Nat
deriving DecidableEq, Repr

/-! ## EqualizerSynthesizer: FFE tap generation (`_get_ffe`, `_get_tx_h_tune`) -/

/-- The per-tuner weights: `value if enabled else 0.0` (the first loop of
`_get_ffe` and `_get_tx_h_tune`). -/
def tapWeights (tuners : List TxTapTuner) : List ℚ :=
  tuners.map (fun t => if t.enabled then t.value else 0)

/-- Python `list.insert(i, v)` clamps the position to the list length. -/
def pyInsert (xs : List ℚ) (i : Nat) (v : ℚ) : List ℚ :=
  List.insertIdx (min i xs.length) v xs

/-- `_get_ffe` (also the tap list built inside `_get_tx_h_tune`): the tap
weights with the computed main tap `1 - sum(map(abs, taps))` inserted at
index 1. -/
def get_ffe (tuners : List TxTapTuner) : List ℚ :=
  let taps := tapWeights tuners
  pyInsert taps 1 (1 - (taps.map (fun x => |x|)).sum)

/-- `_get_tx_h_tune`: expand each tap coefficient into one sample followed
by `nspui - 1` zeros (`sum([[x] + list(zeros(nspui - 1)) for x in taps], [])`). -/
def get_tx_h_tune (tuners : List TxTapTuner) (nspui : Nat) : List ℚ :=
  (get_ffe tuners).flatMap (fun x => x :: List.replicate (nspui - 1) 0)

/-! ## OptimizationCoordinator state and button handlers -/

/-- The closed set of CTLE operating modes (`Enum('Off', 'Passive', 'AGC', 'Manual')`). -/
inductive CtleMode
  | Off
  | Passive
  | AGC
  | Manual
deriving DecidableEq, Repr

/-- A worker thread handle; only its liveness is observable (`isAlive()`). -/
structure ThreadHandle where
  alive : Bool
deriving DecidableEq, Repr

/-- The slice of `PyBERT` state touched by the optimization start handlers,
the tuning-DFE toggles and the `peak_mag_tune` writes. -/
structure OptState where
  tx_opt_thread : Option ThreadHandle
  rx_opt_thread : Option ThreadHandle
  coopt_thread : Option ThreadHandle
  tx_tap_tuners : List TxTapTuner
  tx_taps : List TxTapTuner
  ctle_mode_tune : CtleMode
  peak_mag_tune : ℚ
deriving DecidableEq, Repr

/-- Python truthiness of `self.xxx_thread and self.xxx_thread.isAlive()`:
a `None` handle is falsy. -/
def threadAlive : Option ThreadHandle → Bool
  | some th => th.alive
  | none => false

/-- `_btn_opt_tx_fired`: no-op when the Tx thread is alive or no tap tuner is
enabled; otherwise install and start a fresh worker. -/
def btn_opt_tx_fired (s : OptState) (fresh : ThreadHandle) : OptState :=
  if threadAlive s.tx_opt_thread = true ∨ s.tx_tap_tuners.any (fun t => t.enabled) = false then s
  else { s with tx_opt_thread := some fresh }

/-- `_btn_opt_rx_fired`: no-op when the Rx thread is alive or the tuning CTLE
mode is "Off"; otherwise install and start a fresh worker. -/
def btn_opt_rx_fired (s : OptState) (fresh : ThreadHandle) : OptState :=
  if threadAlive s.rx_opt_thread = true ∨ s.ctle_mode_tune = CtleMode.Off then s
  else { s with rx_opt_thread := some fresh }

/-- `_btn_coopt_fired`: no-op when the co-optimization thread is alive;
otherwise install and start a fresh worker. -/
def btn_coopt_fired (s : OptState) (fresh : ThreadHandle) : OptState :=
  if threadAlive s.coopt_thread = true then s
  else { s with coopt_thread := some fresh }

/-- `gMaxCTLEPeak`: max. allowed CTLE peaking (dB) when optimizing. -/
def gMaxCTLEPeak : ℚ := 20

/-- `_set_ctle_peak_mag_tune`, the range-checking intercept as written: raise
when the value is above `gMaxCTLEPeak` or below 0, else store it.  In the
program this method is dead code: `peak_mag_tune` is a plain `Float` trait
(not a `Property`), no trait named `ctle_peak_mag_tune` exists, and even the
reject branch names an undefined `RunTimeException`. -/
def set_ctle_peak_mag_tune (s : OptState) (val : ℚ) : Except String OptState :=
  if gMaxCTLEPeak < val ∨ val < 0 then
    Except.error "CTLE peak magnitude out of range!"
  else
    Except.ok { s with peak_mag_tune := val }

/-- What an actual write of the `peak_mag_tune` trait does in the program
(e.g. `pybert.peak_mag_tune = peak_mag` in `RxOptThread.do_opt_rx` and
`CoOptThread.do_coopt`): store the value unconditionally. -/
def write_peak_mag_tune (s : OptState) (val : ℚ) : OptState :=
  { s with peak_mag_tune := val }

/-- Set the `enabled` flag of the tuner at index `i` (`taps[i].enabled = b`);
out-of-range indices are never reached in the program (the lists have four
entries). -/
def setEnabledAt (l : List TxTapTuner) (i : Nat) (b : Bool) : List TxTapTuner :=
  match l[i]? with
  | some t => l.set i { t with enabled := b }
  | none => l

/-- `_use_dfe_tune_changed`: `for i in range(1, 4): tuners[i].enabled = ...`,
set to `True` when the new flag value is `False` and vice versa. -/
def use_dfe_tune_changed (tuners : List TxTapTuner) (new_value : Bool) : List TxTapTuner :=
  if new_value = false then
    setEnabledAt (setEnabledAt (setEnabledAt tuners 1 true) 2 true) 3 true
  else
    setEnabledAt (setEnabledAt (setEnabledAt tuners 1 false) 2 false) 3 false

/-- `_use_dfe_changed`: identical body, acting on the `tx_taps` list. -/
def use_dfe_changed (tx_taps : List TxTapTuner) (new_value : Bool) : List TxTapTuner :=
  if new_value = false then
    setEnabledAt (setEnabledAt (setEnabledAt tx_taps 1 true) 2 true) 3 true
  else
    setEnabledAt (setEnabledAt (setEnabledAt tx_taps 1 false) 2 false) 3 false

/-! ## EqualizerSynthesizer: CTLE impulse response (`_get_ctle_h_tune`) -/

/-- `_get_ctle_h_tune` after the external `make_ctle` call: truncate the raw
inverse transform to `len_h` samples and rescale every sample by
`abs(H[0]) / sum(h)`.  `hraw` stands for `real(ifft(H))` and `magH0` for
`abs(H[0])`; both are produced by code outside this source file
(`pybert_util.make_ctle` and `numpy.fft.ifft`), so they enter as parameters. -/
def get_ctle_h_tune (hraw : List ℚ) (len_h : Nat) (magH0 : ℚ) : List ℚ :=
  let h := hraw.take len_h
  h.map (fun x => x * (magH0 / h.sum))

/-- Modelled from the spec: `make_ctle` (missing from this repository
snapshot, it lives in `pybert_util.py`) in mode "Off" "must synthesize an
all-pass (unity, zero-delay) response", i.e. `H ≡ 1` with `H(0) = 1`, whose
inverse DFT over an `n`-point grid is the unit impulse. -/
def ctle_h_raw_off (n : Nat) : List ℚ :=
  match n with
  | 0 => []
  | k + 1 => 1 :: List.replicate k 0

/-! ## ChannelModel (`calc_chnl_h`) -/

/-- numpy `diff`: adjacent differences. -/
def npDiff : List ℚ → List ℚ
  | [] => []
  | [_] => []
  | x :: y :: rest => (y - x) :: npDiff (y :: rest)

/-- Largest element of a list (numpy `max`); 0 for the empty list, which the
program never feeds it. -/
def listMax (l : List ℚ) : ℚ := l.foldr max (l.headD 0)

/-- numpy `ndarray.resize(n)`: truncate or zero-pad to length `n`. -/
def npResize (l : List ℚ) (n : Nat) : List ℚ :=
  l.take n ++ List.replicate (n - l.length) 0

/-- The file-import branch of `calc_chnl_h` before trimming: auto-detect a
step response by comparing the last sample against half the peak,
differentiate it, else scale by the sample period; then resize to the
length of the time vector. -/
def chnl_h_import (imported : List ℚ) (ts : ℚ) (npts : Nat) : List ℚ :=
  let h :=
    if listMax imported / 2 < (imported.getLast?.getD 0) then npDiff imported
    else imported.map (fun x => x * ts)
  npResize h npts

/-- The final renormalization `chnl_h /= sum(chnl_h)` of `calc_chnl_h`. -/
def normalizeChnl (trimmed : List ℚ) : List ℚ :=
  trimmed.map (fun x => x / trimmed.sum)

/-- `calc_chnl_h`, with the external pieces as parameters: `physicalRaw`
stands for `real(ifft(chnl_H))` of the physical-parameter branch (built by
`calc_gamma`/`calc_G`/`ifft`, all outside this source file) and `trim` for
`pybert_util.trim_impulse` (returning the trimmed response and its start
index).  Both branches share the trim-and-renormalize tail. -/
def calc_chnl_h (use_ch_file : Bool) (imported : List ℚ) (ts : ℚ) (npts : Nat)
    (physicalRaw : List ℚ) (trim : List ℚ → List ℚ × Nat) : List ℚ :=
  let pre := if use_ch_file then chnl_h_import imported ts npts else physicalRaw
  normalizeChnl (trim pre).1

/-! ## CostEvaluator (`_get_cost`, the "Hula-Hoop" algorithm)

The embedding below assumes, like the program, `nspui ≤ len(h)` (numpy
raises a broadcast error otherwise) and models the in-place numpy array
mutations by returning the final array. -/

/-- numpy `cumsum`. -/
def cumsum (h : List ℚ) : List ℚ := (h.scanl (· + ·) 0).tail

/-- The per-unit-interval pulse response
`p = s - pad(s[:-nspui], (nspui, 0), 'constant')`, pointwise:
`p[i] = s[i] - (s[i - nspui] if nspui <= i else 0)`. -/
def pulse (h : List ℚ) (nspui : Nat) : List ℚ :=
  let s := cumsum h
  (List.range s.length).map (fun i =>
    s.getD i 0 - (if nspui ≤ i then s.getD (i - nspui) 0 else 0))

/-- numpy `where(p > thresh)[0]`: the indices whose sample exceeds the
threshold, in increasing order. -/
def overIdxs (p : List ℚ) (thresh : ℚ) : List Nat :=
  (List.range p.length).filter (fun i => decide (thresh < p.getD i 0))

/-- The initial detection set, at threshold `max(p) / 2`. -/
def detect0 (p : List ℚ) : List Nat := overIdxs p (listMax p / 2)

/-- `err = main_lobe_ixs[-1] - main_lobe_ixs[0] - nspui`.  The `getD 0`
defaults stand for the `IndexError` Python would raise on an empty index
array; that branch is provably unreachable (theorem for C3). -/
def lobeErr (p : List ℚ) (nspui : Nat) (thresh : ℚ) : ℤ :=
  ((overIdxs p thresh).getLast?.getD 0 : ℤ) - ((overIdxs p thresh).head?.getD 0 : ℤ) - nspui

/-- The threshold-refinement loop
`while(err and div < 5000): div *= 2; thresh +-= p_max / div; ...`,
with an explicit fuel.  Returns the final threshold, the final divisor and
the number of iterations executed.  `get_cost` runs it with fuel 12, which
is provably enough (theorem for C5): the divisor starts at 2 and doubles
each iteration, so the `div < 5000` guard fails after at most 12 rounds. -/
def hulaAux (p : List ℚ) (pmax : ℚ) (nspui : Nat) :
    Nat → ℚ → ℚ → ℚ × ℚ × Nat
  | 0, thresh, div => (thresh, div, 0)
  | fuel + 1, thresh, div =>
    if lobeErr p nspui thresh ≠ 0 ∧ div < 5000 then
      let div2 := 2 * div
      let thresh2 :=
        if 0 < lobeErr p nspui thresh then thresh + pmax / div2 else thresh - pmax / div2
      let r := hulaAux p pmax nspui fuel thresh2 div2
      (r.1, r.2.1, r.2.2 + 1)
    else (thresh, div, 0)

/-- The threshold the loop settles on, starting from `max(p) / 2` and
divisor 2. -/
def finalThresh (p : List ℚ) (nspui : Nat) : ℚ :=
  (hulaAux p (listMax p) nspui 12 (listMax p / 2) 2).1

/-- The detected main lobe: the indices exceeding the settled threshold. -/
def mainLobe (p : List ℚ) (nspui : Nat) : List Nat :=
  overIdxs p (finalThresh p nspui)

/-- `clock_pos = int(mean([main_lobe_ixs[0], main_lobe_ixs[-1]]))`, shifted
back by `nspui // 2` for duo-binary modulation (`mod_type == 1`).  Both lobe
ends are nonnegative, so `int()` truncation agrees with integer division. -/
def clockPos (p : List ℚ) (nspui : Nat) (mod_type : Nat) : ℤ :=
  let ml := mainLobe p nspui
  let cp0 : ℤ := ((ml.head?.getD 0 : ℤ) + (ml.getLast?.getD 0 : ℤ)) / 2
  if mod_type = 1 then cp0 - (nspui / 2 : Nat) else cp0

/-- Python array indexing with negative wrap-around; indices below `-len`
(which raise in Python and are unreachable here) default to the first
sample. -/
def pyGet (p : List ℚ) (i : ℤ) : ℚ :=
  if 0 ≤ i then p.getD i.toNat 0 else p.getD (i + p.length).toNat 0

/-- The backward clock-marker walk
`ix = clock_pos - nspui; while(ix >= 0): isi += abs(p[ix]); ix -= nspui`:
accumulate `|p[ix]|` while the index stays nonnegative. -/
def backWalk (p : List ℚ) (nspui : Nat) (ix : ℤ) : ℚ :=
  if _hc : 0 ≤ ix ∧ 1 ≤ nspui then
    |p.getD ix.toNat 0| + backWalk p nspui (ix - nspui)
  else 0
termination_by (ix + 1).toNat
decreasing_by omega

/-- The forward clock-marker walk `while(ix < len(p)): ...; ix += nspui`,
accumulating `|p[ix]|` (the accumulation is skipped entirely by the caller
when the DFE tuning flag is set, matching the source). -/
def fwdWalk (p : List ℚ) (nspui : Nat) (ix : Nat) : ℚ :=
  if _hc : ix < p.length ∧ 1 ≤ nspui then
    |p.getD ix 0| + fwdWalk p nspui (ix + nspui)
  else 0
termination_by p.length - ix
decreasing_by omega

/-- numpy slice assignment `p[start:] -= v` with a possibly negative start
(Python wrap-around slicing). -/
def subFrom (p : List ℚ) (start : ℤ) (v : ℚ) : List ℚ :=
  let s : ℤ := if start < 0 then start + p.length else start
  (List.range p.length).map (fun (j : Nat) =>
    if s ≤ (j : ℤ) then p.getD j 0 - v else p.getD j 0)

/-- The DFE emulation loop
`for i in range(n_taps): if clock_pos + nspui*(1+i) < len(p):
p[clock_pos + nspui*(0.5 + i):] -= p[clock_pos + nspui*(1 + i)]`.
The float slice start truncates under Python 2 numpy, so it is
`clock_pos + i*nspui + nspui // 2`. -/
def dfeAux (nspui : Nat) (cp : ℤ) : Nat → Nat → List ℚ → List ℚ
  | _, 0, p => p
  | i, r + 1, p =>
    let p2 :=
      if cp + (1 + i) * nspui < (p.length : ℤ) then
        subFrom p (cp + i * nspui + (nspui / 2 : Nat)) (pyGet p (cp + (1 + i) * nspui))
      else p
    dfeAux nspui cp (i + 1) r p2

/-- All `n_taps_tune` DFE post-cursor subtractions, applied in order. -/
def dfeSub (p : List ℚ) (nspui : Nat) (cp : ℤ) (nTaps : Nat) : List ℚ :=
  dfeAux nspui cp 0 nTaps p

/-- `_get_cost` in full: returns the cost together with the final (possibly
DFE-mutated) pulse response that the source publishes to the plot sink. -/
def costEval (h : List ℚ) (nspui : Nat) (mod_type : Nat) (use_dfe_tune : Bool)
    (n_taps_tune : Nat) : ℚ × List ℚ :=
  let p := pulse h nspui
  if (detect0 p).isEmpty then (1, p)
  else
    let cp := clockPos p nspui mod_type
    let isiBack := backWalk p nspui (cp - nspui)
    let fwdStart : ℤ := if mod_type = 1 then cp + 2 * nspui else cp + nspui
    let isiFwd := if use_dfe_tune then 0 else fwdWalk p nspui fwdStart.toNat
    let isi := isiBack + isiFwd
    let pF := if use_dfe_tune then dfeSub p nspui cp n_taps_tune else p
    if mod_type = 1 then
      (isi - pyGet pF cp - pyGet pF (cp + nspui)
         + 2 * |pyGet pF (cp + nspui) - pyGet pF cp|, pF)
    else
      (isi - pyGet pF cp, pF)

/-- The scalar cost returned by `_get_cost`. -/
def get_cost (h : List ℚ) (nspui : Nat) (mod_type : Nat) (use_dfe_tune : Bool)
    (n_taps_tune : Nat) : ℚ :=
  (costEval h nspui mod_type use_dfe_tune n_taps_tune).1

/-- The accumulated precursor ISI exactly as the spec words it: the sum of
`|p[clock_pos - k*nspui]|` over all in-range backward steps `k ≥ 1`.  There
are `⌊clock_pos/nspui⌋` such steps; below `k = j + 1`. -/
def backSpec (p : List ℚ) (nspui : Nat) (cp : ℤ) : ℚ :=
  ∑ j ∈ Finset.range (cp.toNat / nspui), |p.getD (cp - (1 + j) * nspui).toNat 0|

/-- The accumulated postcursor ISI exactly as the spec words it: the sum of
`|p[clock_pos + k*nspui]|` over all in-range forward steps `k ≥ 1`.  There
are `⌈(len(p) - (clock_pos + nspui))/nspui⌉` such steps; below `k = j + 1`. -/
def fwdSpec (p : List ℚ) (nspui : Nat) (cp : ℤ) : ℚ :=
  ∑ j ∈ Finset.range ((p.length - (cp + nspui).toNat + nspui - 1) / nspui),
    |p.getD ((cp + nspui).toNat + j * nspui) 0|

/-- The literal reading of claim C1 for the DFE emulation step: subtract the
cancelled post-cursor sample value from all strictly later samples only. -/
def subLater (p : List ℚ) (pos : ℤ) (v : ℚ) : List ℚ :=
  (List.range p.length).map (fun (j : Nat) =>
    if pos < (j : ℤ) then p.getD j 0 - v else p.getD j 0)

/-- The DFE emulation loop under the literal reading of claim C1. -/
def dfeClaimAux (nspui : Nat) (cp : ℤ) : Nat → Nat → List ℚ → List ℚ
  | _, 0, p => p
  | i, r + 1, p =>
    let p2 :=
      if cp + (1 + i) * nspui < (p.length : ℤ) then
        subLater p (cp + (1 + i) * nspui) (pyGet p (cp + (1 + i) * nspui))
      else p
    dfeClaimAux nspui cp (i + 1) r p2

/-- The cost that claim C1, read literally, predicts: ISI (backward steps
plus, without DFE, forward steps `k ≥ 1`) minus the main-lobe sample, with
the DFE subtractions applied to strictly later samples only, and the
duo-binary corrections on top. -/
def cost_claim_C1 (h : List ℚ) (nspui : Nat) (mod_type : Nat) (dfe : Bool) (taps : Nat) : ℚ :=
  let p := pulse h nspui
  let cp := clockPos p nspui mod_type
  let isi := backSpec p nspui cp + (if dfe then 0 else fwdSpec p nspui cp)
  let q := if dfe then dfeClaimAux nspui cp 0 taps p else p
  if mod_type = 1 then
    isi - pyGet q cp - pyGet q (cp + nspui) + 2 * |pyGet q (cp + nspui) - pyGet q cp|
  else isi - pyGet q cp

end PyBERT

namespace PyBERT

/-! ## Helper lemmas -/

lemma sum_map_div (l : List ℚ) (c : ℚ) : (l.map (fun x => x / c)).sum = l.sum / c := by
  induction l with
  | nil => simp
  | cons x xs ih => simp [ih, add_div]

lemma sum_normalizeChnl (trimmed : List ℚ) (hs : trimmed.sum ≠ 0) :
    (normalizeChnl trimmed).sum = 1 := by
  unfold normalizeChnl
  rw [sum_map_div, div_self hs]

lemma getD_flatMap_block (l : List ℚ) (m : Nat) (hm : 1 ≤ m) (i : Nat) :
    (l.flatMap (fun x => x :: List.replicate (m - 1) 0)).getD i 0 =
      if i % m = 0 then l.getD (i / m) 0 else 0 := by
  induction l generalizing i with
  | nil => simp [List.getD]
  | cons x xs ih =>
    have hblock : (x :: List.replicate (m - 1) (0:ℚ)).length = m := by
      simp; omega
    rw [List.flatMap_cons]
    rcases Nat.lt_or_ge i m with hi | hi
    · rw [List.getD_append _ _ _ _ (by rw [hblock]; exact hi)]
      rcases Nat.eq_zero_or_pos i with rfl | hpos
      · simp [List.getD, Nat.zero_mod, Nat.zero_div]
      · have hmod : i % m = i := Nat.mod_eq_of_lt hi
        have : (x :: List.replicate (m - 1) (0:ℚ)).getD i 0 = 0 := by
          cases i with
          | zero => omega
          | succ j =>
            simp only [List.getD_cons_succ]
            rcases Nat.lt_or_ge j (m - 1) with hj | hj
            · simp [List.getD_eq_getElem?_getD, List.getElem?_replicate, hj]
            · rw [List.getD_eq_getElem?_getD, List.getElem?_eq_none (by simp; omega)]
              rfl
        rw [this, hmod, if_neg (by omega)]
    · rw [List.getD_append_right _ _ _ _ (by rw [hblock]; exact hi), hblock, ih (i - m)]
      have hmod : i % m = (i - m) % m := (Nat.mod_eq_sub_mod hi).symm ▸ rfl
      have hdiv : i / m = (i - m) / m + 1 := by
        have := Nat.add_div_right (i - m) (by omega : 0 < m)
        rw [Nat.sub_add_cancel hi] at this
        omega
      rw [← hmod, hdiv]
      by_cases h0 : i % m = 0 <;> simp [h0, List.getD_cons_succ]

end PyBERT

namespace PyBERT

/-- C2: the synthesized FFE tap vector takes each tuner value if enabled else
0, inserts the main tap `1 - Σ|other taps|` at index 1 (exactly 1 when no
tuner is enabled), and the tuning-path impulse response expands each
coefficient into one sample followed by `nspui - 1` zeros, giving length
`(taps + 1) * nspui` with nonzero entries only at multiples of `nspui`. -/
theorem ffe_tap_synthesis (tuners : List TxTapTuner) (nspui : Nat)
    (hn : 1 ≤ nspui) (ht : tuners ≠ []) :
    get_ffe tuners =
        (tapWeights tuners).take 1 ++
          (1 - ((tapWeights tuners).map (fun x => |x|)).sum) :: (tapWeights tuners).drop 1
    ∧ (get_ffe tuners).getD 1 0 = 1 - ((tapWeights tuners).map (fun x => |x|)).sum
    ∧ ((∀ t ∈ tuners, t.enabled = false) → (get_ffe tuners).getD 1 0 = 1)
    ∧ (get_tx_h_tune tuners nspui).length = (tuners.length + 1) * nspui
    ∧ ∀ i : Nat, (get_tx_h_tune tuners nspui).getD i 0 =
        if i % nspui = 0 then (get_ffe tuners).getD (i / nspui) 0 else 0 := by
  obtain ⟨t0, rest, rfl⟩ : ∃ t0 rest, tuners = t0 :: rest := by
    cases tuners with
    | nil => exact absurd rfl ht
    | cons a l => exact ⟨a, l, rfl⟩
  have hffe : get_ffe (t0 :: rest) =
      (tapWeights (t0 :: rest)).take 1 ++
        (1 - ((tapWeights (t0 :: rest)).map (fun x => |x|)).sum) :: (tapWeights (t0 :: rest)).drop 1 := by
    simp [get_ffe, pyInsert, tapWeights, List.insertIdx]
  refine ⟨hffe, ?_, ?_, ?_, ?_⟩
  · rw [hffe]; simp [tapWeights]
  · intro hall
    rw [hffe]
    have hw : tapWeights (t0 :: rest) = List.replicate (t0 :: rest).length 0 := by
      unfold tapWeights
      rw [List.eq_replicate_iff]
      refine ⟨by simp, ?_⟩
      intro b hb
      simp only [List.mem_map] at hb
      obtain ⟨t, htmem, rfl⟩ := hb
      rw [hall t htmem]
      rfl
    rw [hw]
    simp [List.getD_eq_getElem?_getD]
  · rw [get_tx_h_tune, List.length_flatMap, hffe]
    have : ∀ l : List ℚ, (List.map (List.length ∘ fun x => x :: List.replicate (nspui - 1) (0:ℚ)) l).sum
        = l.length * nspui := by
      intro l
      induction l with
      | nil => simp
      | cons a as ih => simp [ih]; ring_nf; omega
    rw [this]
    have hlen : ((tapWeights (t0 :: rest)).take 1 ++
        (1 - ((tapWeights (t0 :: rest)).map (fun x => |x|)).sum) :: (tapWeights (t0 :: rest)).drop 1).length
        = (t0 :: rest).length + 1 := by
      simp [tapWeights]
    rw [hlen]
  · intro i
    rw [get_tx_h_tune, getD_flatMap_block _ nspui hn i]

end PyBERT

namespace PyBERT

/-- Witness for C2 at the two-tuner list with both tuners disabled and
`nspui = 2`. -/
theorem ffe_tap_synthesis_witness :
    (1:Nat) ≤ 2 ∧
    ([⟨"Pre-tap", false, -1/5, 1/5, 1/10, 0⟩, ⟨"Post-tap1", false, -2/5, 2/5, 0, 0⟩]
      : List TxTapTuner) ≠ [] ∧
    (get_tx_h_tune
        [⟨"Pre-tap", false, -1/5, 1/5, 1/10, 0⟩, ⟨"Post-tap1", false, -2/5, 2/5, 0, 0⟩]
        2).length = (2 + 1) * 2 :=
  ⟨by norm_num, by simp,
    (ffe_tap_synthesis
      [⟨"Pre-tap", false, -1/5, 1/5, 1/10, 0⟩, ⟨"Post-tap1", false, -2/5, 2/5, 0, 0⟩]
      2 (by norm_num) (by simp)).2.2.2.1⟩

/-- C4: the truncated CTLE impulse response, rescaled by
`abs(H[0]) / sum(h)`, has sample sum exactly the DC-gain magnitude whenever
the pre-rescale sum is nonzero; in mode "Off", where `H ≡ 1`, the sum is
exactly 1. -/
theorem ctle_dc_gain (hraw : List ℚ) (len_h : Nat) (magH0 : ℚ)
    (hsum : (hraw.take len_h).sum ≠ 0) :
    (get_ctle_h_tune hraw len_h magH0).sum = magH0
    ∧ ∀ n : Nat, 1 ≤ n → 1 ≤ len_h → (get_ctle_h_tune (ctle_h_raw_off n) len_h 1).sum = 1 := by
  have key : ∀ (l : List ℚ) (m : ℚ), l.sum ≠ 0 → (l.map (fun x => x * (m / l.sum))).sum = m := by
    intro l m hl
    rw [List.sum_map_mul_right l (fun x => x) (m / l.sum)]
    simp only [List.map_id']
    rw [mul_comm, div_mul_cancel₀ _ hl]
  constructor
  · exact key _ _ hsum
  · intro n hn hlh
    obtain ⟨k, rfl⟩ : ∃ k, n = k + 1 := ⟨n - 1, by omega⟩
    obtain ⟨j, rfl⟩ : ∃ j, len_h = j + 1 := ⟨len_h - 1, by omega⟩
    have htake : ((ctle_h_raw_off (k + 1)).take (j + 1)) = 1 :: (List.replicate k (0:ℚ)).take j := by
      simp [ctle_h_raw_off]
    have hs : ((ctle_h_raw_off (k + 1)).take (j + 1)).sum = 1 := by
      rw [htake]
      simp [List.take_replicate]
    unfold get_ctle_h_tune
    rw [key _ _ (by rw [hs]; norm_num)]

/-- Witness for C4 at `hraw = [2]`, `len_h = 1`, `magH0 = 3`. -/
theorem ctle_dc_gain_witness :
    (([2] : List ℚ).take 1).sum ≠ 0 ∧ (get_ctle_h_tune [2] 1 3).sum = 3 :=
  ⟨by norm_num, (ctle_dc_gain [2] 1 3 (by norm_num)).1⟩

/-- C8: the trimmed channel impulse response produced by `calc_chnl_h` sums
to exactly 1 on both the physical-parameter path and the file-import path,
whenever the trimmed response has nonzero sample sum. -/
theorem chnl_h_unit_dc (use_ch_file : Bool) (imported : List ℚ) (ts : ℚ) (npts : Nat)
    (physicalRaw : List ℚ) (trim : List ℚ → List ℚ × Nat)
    (hsum : (trim (if use_ch_file then chnl_h_import imported ts npts else physicalRaw)).1.sum ≠ 0) :
    (calc_chnl_h use_ch_file imported ts npts physicalRaw trim).sum = 1 := by
  unfold calc_chnl_h
  exact sum_normalizeChnl _ hsum

/-- Witness for C8 on the file-import path with a step-response input. -/
theorem chnl_h_unit_dc_witness :
    ((fun l => (l, 0)) (if true then chnl_h_import [0, 2] 1 1 else [])).1.sum ≠ (0:ℚ) ∧
    (calc_chnl_h true [0, 2] 1 1 [] (fun l => (l, 0))).sum = 1 :=
  ⟨by norm_num [chnl_h_import, listMax, npDiff, npResize],
    chnl_h_unit_dc true [0, 2] 1 1 [] (fun l => (l, 0))
      (by norm_num [chnl_h_import, listMax, npDiff, npResize])⟩

end PyBERT

namespace PyBERT

lemma cumsum_replicate_zero (n : Nat) : cumsum (List.replicate n (0:ℚ)) = List.replicate n 0 := by
  unfold cumsum
  have : ∀ (m : Nat) (a : ℚ), a = 0 → (List.replicate m (0:ℚ)).scanl (· + ·) a = List.replicate (m + 1) 0 := by
    intro m
    induction m with
    | zero => intro a ha; simp [ha]
    | succ k ih =>
      intro a ha
      simp only [List.replicate_succ, List.scanl_cons, ha]
      rw [ih (0 + 0) (by norm_num)]
      simp [List.replicate_succ, ha]
  rw [this n 0 rfl]
  simp [List.replicate_succ]

lemma listMax_replicate_zero (n : Nat) : listMax (List.replicate n (0:ℚ)) = 0 := by
  unfold listMax
  induction n with
  | zero => simp
  | succ k ih =>
    simp only [List.replicate_succ, List.foldr_cons, List.headD_cons]
    cases k with
    | zero => simp
    | succ j =>
      simp only [List.replicate_succ, List.headD_cons] at ih ⊢
      rw [ih]
      simp

/-- C9: an all-zero combined response yields the sentinel cost 1: its pulse
response is all zeros, the pulse maximum is 0, no index exceeds the initial
threshold, and the early-return branch is taken. -/
theorem all_zero_cost (n nspui mod_type : Nat) (dfe : Bool) (taps : Nat)
    (h1 : 1 ≤ nspui) (h2 : nspui ≤ n) :
    pulse (List.replicate n 0) nspui = List.replicate n 0
    ∧ listMax (pulse (List.replicate n 0) nspui) = 0
    ∧ detect0 (pulse (List.replicate n 0) nspui) = []
    ∧ get_cost (List.replicate n 0) nspui mod_type dfe taps = 1 := by
  have hp : pulse (List.replicate n (0:ℚ)) nspui = List.replicate n 0 := by
    unfold pulse
    rw [cumsum_replicate_zero]
    have : ∀ i ∈ List.range (List.replicate n (0:ℚ)).length,
        ((List.replicate n (0:ℚ)).getD i 0 -
          (if nspui ≤ i then (List.replicate n (0:ℚ)).getD (i - nspui) 0 else 0)) = 0 := by
      intro i _
      have ha : (List.replicate n (0:ℚ)).getD i 0 = 0 := by
        rw [List.getD_eq_getElem?_getD, List.getElem?_replicate]
        split <;> rfl
      have hb : (List.replicate n (0:ℚ)).getD (i - nspui) 0 = 0 := by
        rw [List.getD_eq_getElem?_getD, List.getElem?_replicate]
        split <;> rfl
      rw [ha, hb]
      split <;> norm_num
    calc (List.range (List.replicate n (0:ℚ)).length).map _
        = (List.range (List.replicate n (0:ℚ)).length).map (fun _ => (0:ℚ)) :=
          List.map_congr_left (by intro i hi; exact this i hi)
      _ = List.replicate n 0 := by simp [List.map_const']
  have hmax : listMax (pulse (List.replicate n (0:ℚ)) nspui) = 0 := by
    rw [hp]; exact listMax_replicate_zero n
  have hdet : detect0 (pulse (List.replicate n (0:ℚ)) nspui) = [] := by
    unfold detect0 overIdxs
    rw [hp, listMax_replicate_zero]
    apply List.filter_eq_nil_iff.mpr
    intro i hi
    simp only [decide_eq_true_eq]
    rw [List.getD_eq_getElem?_getD, List.getElem?_replicate]
    norm_num
    split <;> norm_num
  refine ⟨hp, hmax, hdet, ?_⟩
  simp only [get_cost, costEval]
  rw [hdet]
  simp

/-- Witness for C9 at `n = 4`, `nspui = 2`. -/
theorem all_zero_cost_witness :
    (1 ≤ 2 ∧ 2 ≤ 4) ∧ get_cost (List.replicate 4 0) 2 0 false 5 = 1 :=
  ⟨⟨by norm_num, by norm_num⟩,
    (all_zero_cost 4 2 0 false 5 (by norm_num) (by norm_num)).2.2.2⟩

end PyBERT

namespace PyBERT

/-- C6: each optimization start handler creates and starts a new worker
exactly when its thread is not alive and its prerequisite holds (Tx: some
tap tuner enabled; Rx: tuning CTLE mode not "Off"; co-opt: none), and is a
pure no-op on the whole state otherwise. -/
theorem opt_start_handlers (s : OptState) (fresh : ThreadHandle) :
    btn_opt_tx_fired s fresh =
      (if threadAlive s.tx_opt_thread = false ∧ s.tx_tap_tuners.any (fun t => t.enabled) = true
       then { s with tx_opt_thread := some fresh } else s)
    ∧ btn_opt_rx_fired s fresh =
      (if threadAlive s.rx_opt_thread = false ∧ s.ctle_mode_tune ≠ CtleMode.Off
       then { s with rx_opt_thread := some fresh } else s)
    ∧ btn_coopt_fired s fresh =
      (if threadAlive s.coopt_thread = false then { s with coopt_thread := some fresh } else s) := by
  refine ⟨?_, ?_, ?_⟩
  · unfold btn_opt_tx_fired
    rcases h1 : threadAlive s.tx_opt_thread <;>
      rcases h2 : s.tx_tap_tuners.any (fun t => t.enabled) <;> simp [h1, h2]
  · unfold btn_opt_rx_fired
    rcases h1 : threadAlive s.rx_opt_thread <;>
      by_cases h2 : s.ctle_mode_tune = CtleMode.Off <;> simp [h1, h2]
  · unfold btn_coopt_fired
    rcases h1 : threadAlive s.coopt_thread <;> simp [h1]

/-- C7 evaluation: a direct write of `peak_mag_tune` (the only kind the
program performs) stores the out-of-range value 25 without any rejection;
the unreachable intercept `_set_ctle_peak_mag_tune` would have rejected it. -/
theorem peak_mag_write_unchecked :
    (write_peak_mag_tune ⟨none, none, none, [], [], CtleMode.Off, 10⟩ 25).peak_mag_tune = 25
    ∧ set_ctle_peak_mag_tune ⟨none, none, none, [], [], CtleMode.Off, 10⟩ 25 =
        Except.error "CTLE peak magnitude out of range!" := by
  constructor
  · rfl
  · unfold set_ctle_peak_mag_tune gMaxCTLEPeak
    norm_num

end PyBERT

namespace PyBERT

/-- C10: toggling the DFE tuning flag mutates exactly the `enabled` flags of
the tuners at indices 1..3 (to the negation of the new flag value); index 0,
all other fields, and all other entries are untouched, and the non-tuning
handler acts identically. -/
theorem dfe_toggle_frame (tuners : List TxTapTuner) (nv : Bool) (d : TxTapTuner)
    (hlen : 4 ≤ tuners.length) :
    (use_dfe_tune_changed tuners nv).length = tuners.length
    ∧ (use_dfe_tune_changed tuners nv)[0]? = tuners[0]?
    ∧ (∀ i : Nat, 1 ≤ i → i ≤ 3 →
        ((use_dfe_tune_changed tuners nv).getD i d).enabled = !nv
        ∧ ((use_dfe_tune_changed tuners nv).getD i d).name = (tuners.getD i d).name
        ∧ ((use_dfe_tune_changed tuners nv).getD i d).value = (tuners.getD i d).value
        ∧ ((use_dfe_tune_changed tuners nv).getD i d).min_val = (tuners.getD i d).min_val
        ∧ ((use_dfe_tune_changed tuners nv).getD i d).max_val = (tuners.getD i d).max_val
        ∧ ((use_dfe_tune_changed tuners nv).getD i d).steps = (tuners.getD i d).steps)
    ∧ (∀ i : Nat, 4 ≤ i → (use_dfe_tune_changed tuners nv)[i]? = tuners[i]?)
    ∧ use_dfe_changed tuners nv = use_dfe_tune_changed tuners nv := by
  rcases tuners with _ | ⟨t0, _ | ⟨t1, _ | ⟨t2, _ | ⟨t3, rest⟩⟩⟩⟩ <;> simp at hlen
  have hkey : use_dfe_tune_changed (t0 :: t1 :: t2 :: t3 :: rest) nv =
      t0 :: { t1 with enabled := !nv } :: { t2 with enabled := !nv }
        :: { t3 with enabled := !nv } :: rest := by
    cases nv <;> simp [use_dfe_tune_changed, setEnabledAt, List.set]
  have hkey2 : use_dfe_changed (t0 :: t1 :: t2 :: t3 :: rest) nv =
      t0 :: { t1 with enabled := !nv } :: { t2 with enabled := !nv }
        :: { t3 with enabled := !nv } :: rest := by
    cases nv <;> simp [use_dfe_changed, setEnabledAt, List.set]
  rw [hkey, hkey2]
  refine ⟨by simp, by simp, ?_, ?_, rfl⟩
  · intro i hi1 hi3
    interval_cases i <;> simp [List.getD]
  · intro i hi
    obtain ⟨k, rfl⟩ : ∃ k, i = k + 4 := ⟨i - 4, by omega⟩
    simp [List.getElem?_cons_succ]

/-- Witness for C10 at the default four-entry tuner list with the flag set
to `true`. -/
theorem dfe_toggle_frame_witness :
    4 ≤ ([⟨"Pre-tap", true, -1/5, 1/5, 0, 0⟩, ⟨"Post-tap1", false, -2/5, 2/5, 0, 0⟩,
          ⟨"Post-tap2", false, -3/10, 3/10, 0, 0⟩, ⟨"Post-tap3", false, -1/5, 1/5, 0, 0⟩]
          : List TxTapTuner).length
    ∧ (use_dfe_tune_changed
        [⟨"Pre-tap", true, -1/5, 1/5, 0, 0⟩, ⟨"Post-tap1", false, -2/5, 2/5, 0, 0⟩,
         ⟨"Post-tap2", false, -3/10, 3/10, 0, 0⟩, ⟨"Post-tap3", false, -1/5, 1/5, 0, 0⟩]
        true).length =
      ([⟨"Pre-tap", true, -1/5, 1/5, 0, 0⟩, ⟨"Post-tap1", false, -2/5, 2/5, 0, 0⟩,
        ⟨"Post-tap2", false, -3/10, 3/10, 0, 0⟩, ⟨"Post-tap3", false, -1/5, 1/5, 0, 0⟩]
        : List TxTapTuner).length :=
  ⟨by simp,
    (dfe_toggle_frame
      [⟨"Pre-tap", true, -1/5, 1/5, 0, 0⟩, ⟨"Post-tap1", false, -2/5, 2/5, 0, 0⟩,
       ⟨"Post-tap2", false, -3/10, 3/10, 0, 0⟩, ⟨"Post-tap3", false, -1/5, 1/5, 0, 0⟩]
      true ⟨"", false, 0, 0, 0, 0⟩ (by simp)).1⟩

end PyBERT

namespace PyBERT

lemma hulaAux_exit (p : List ℚ) (pmax : ℚ) (nspui : Nat) (fuel : Nat) (thresh div : ℚ)
    (hout : ¬ (lobeErr p nspui thresh ≠ 0 ∧ div < 5000)) :
    hulaAux p pmax nspui fuel thresh div = (thresh, div, 0) := by
  cases fuel with
  | zero => rfl
  | succ k => rw [hulaAux, if_neg hout]

lemma hulaAux_count_le (p : List ℚ) (pmax : ℚ) (nspui : Nat) :
    ∀ (fuel k : Nat) (thresh div : ℚ), 5000 ≤ div * 2 ^ k →
      (hulaAux p pmax nspui fuel thresh div).2.2 ≤ k := by
  intro fuel
  induction fuel with
  | zero => intro k thresh div _; simp [hulaAux]
  | succ m ih =>
    intro k thresh div hk
    rw [hulaAux]
    split
    · rename_i hcond
      cases k with
      | zero =>
        simp only [pow_zero, mul_one] at hk
        exact absurd hcond.2 (by linarith)
      | succ j =>
        have : 5000 ≤ 2 * div * 2 ^ j := by
          have : div * 2 ^ (j + 1) = 2 * div * 2 ^ j := by ring
          linarith [hk, this ▸ hk]
        simpa using Nat.succ_le_succ (ih j _ (2 * div) this)
    · simp

lemma hulaAux_fuel_succ (p : List ℚ) (pmax : ℚ) (nspui : Nat) :
    ∀ (fuel : Nat) (thresh div : ℚ), 5000 ≤ div * 2 ^ fuel →
      hulaAux p pmax nspui (fuel + 1) thresh div = hulaAux p pmax nspui fuel thresh div := by
  intro fuel
  induction fuel with
  | zero =>
    intro thresh div h0
    simp only [pow_zero, mul_one] at h0
    rw [hulaAux_exit p pmax nspui 1 thresh div (by push_neg; intro _; linarith), hulaAux]
  | succ m ih =>
    intro thresh div hk
    have hk2 : (5000:ℚ) ≤ 2 * div * 2 ^ m := by
      have hr : div * 2 ^ (m + 1) = 2 * div * 2 ^ m := by ring
      linarith [hr ▸ hk]
    conv_lhs => rw [hulaAux]
    conv_rhs => rw [hulaAux]
    split
    · dsimp only
      rw [ih (if 0 < lobeErr p nspui thresh then thresh + pmax / (2 * div)
              else thresh - pmax / (2 * div)) (2 * div) hk2]
    · rfl

lemma hulaAux_fuel_ge (p : List ℚ) (pmax : ℚ) (nspui : Nat) :
    ∀ (m fuel : Nat) (thresh div : ℚ), 0 < div → 5000 ≤ div * 2 ^ fuel →
      hulaAux p pmax nspui (fuel + m) thresh div = hulaAux p pmax nspui fuel thresh div := by
  intro m
  induction m with
  | zero => intro fuel thresh div _ _; rfl
  | succ j ih =>
    intro fuel thresh div hdiv hk
    have hmono : 5000 ≤ div * 2 ^ (fuel + j) := by
      have : div * 2 ^ fuel ≤ div * 2 ^ (fuel + j) := by
        have := pow_le_pow_right₀ (by norm_num : (1:ℚ) ≤ 2) (by omega : fuel ≤ fuel + j)
        nlinarith
      linarith
    have : fuel + (j + 1) = (fuel + j) + 1 := by omega
    rw [this, hulaAux_fuel_succ p pmax nspui (fuel + j) thresh div hmono, ih fuel thresh div hdiv hk]

/-- C5: the threshold-refinement loop starts with divisor 2, doubles it each
round, exits once the divisor reaches 5000, and therefore performs at most
12 refinement iterations on every input; running it with any fuel beyond 12
changes nothing, so the unbounded `while` loop of the source terminates
within 12 iterations. -/
theorem hula_loop_budget (p : List ℚ) (nspui : Nat) :
    (∀ fuel : Nat,
      (hulaAux p (listMax p) nspui fuel (listMax p / 2) 2).2.2 ≤ 12)
    ∧ ∀ fuel : Nat, 12 ≤ fuel →
        hulaAux p (listMax p) nspui fuel (listMax p / 2) 2
          = hulaAux p (listMax p) nspui 12 (listMax p / 2) 2 := by
  constructor
  · intro fuel
    exact hulaAux_count_le p (listMax p) nspui fuel 12 _ 2 (by norm_num)
  · intro fuel hf
    obtain ⟨m, rfl⟩ : ∃ m, fuel = 12 + m := ⟨fuel - 12, by omega⟩
    exact hulaAux_fuel_ge p (listMax p) nspui m 12 _ 2 (by norm_num) (by norm_num)

/-- Witness for C5 at `p = [1]`, `nspui = 1`, fuel 13. -/
theorem hula_loop_budget_witness :
    (12:Nat) ≤ 13 ∧
    hulaAux [1] (listMax [1]) 1 13 (listMax [1] / 2) 2
      = hulaAux [1] (listMax [1]) 1 12 (listMax [1] / 2) 2 :=
  ⟨by norm_num, (hula_loop_budget [1] 1).2 13 (by norm_num)⟩

end PyBERT

namespace PyBERT

lemma foldr_max_mem_or (a : ℚ) (l : List ℚ) : l.foldr max a = a ∨ l.foldr max a ∈ l := by
  induction l with
  | nil => left; rfl
  | cons x t ih =>
    simp only [List.foldr_cons]
    rcases max_choice x (t.foldr max a) with hm | hm
    · right; rw [hm]; exact List.mem_cons_self x t
    · rcases ih with h | h
      · left; rw [hm, h]
      · right; rw [hm]; exact List.mem_cons_of_mem x h

lemma le_foldr_max (a b : ℚ) (l : List ℚ) (hb : b ∈ l) : b ≤ l.foldr max a := by
  induction l with
  | nil => simp at hb
  | cons x t ih =>
    simp only [List.foldr_cons]
    rcases List.mem_cons.mp hb with rfl | h
    · exact le_max_left _ _
    · exact le_trans (ih h) (le_max_right _ _)

lemma listMax_mem (l : List ℚ) (hl : l ≠ []) : listMax l ∈ l := by
  unfold listMax
  rcases foldr_max_mem_or (l.headD 0) l with h | h
  · rw [h]
    cases l with
    | nil => exact absurd rfl hl
    | cons x t => exact List.mem_cons_self x t
  · exact h

lemma le_listMax (l : List ℚ) (b : ℚ) (hb : b ∈ l) : b ≤ listMax l :=
  le_foldr_max _ _ _ hb

lemma overIdxs_ne_nil_iff (p : List ℚ) (th : ℚ) :
    overIdxs p th ≠ [] ↔ ∃ i, i < p.length ∧ th < p.getD i 0 := by
  unfold overIdxs
  constructor
  · intro hne
    obtain ⟨i, hi⟩ := List.exists_mem_of_ne_nil _ hne
    rw [List.mem_filter, List.mem_range] at hi
    exact ⟨i, hi.1, by simpa using hi.2⟩
  · intro ⟨i, hilen, hith⟩
    intro hnil
    have : i ∈ List.filter (fun i => decide (th < p.getD i 0)) (List.range p.length) := by
      rw [List.mem_filter, List.mem_range]
      exact ⟨hilen, by simpa using hith⟩
    rw [hnil] at this
    simp at this

lemma hulaAux_thresh_bound (p : List ℚ) (pmax : ℚ) (nspui : Nat) (hpos : 0 < pmax) :
    ∀ (fuel : Nat) (thresh div : ℚ), 0 < div → thresh ≤ pmax * (1 - 1 / div) →
      (hulaAux p pmax nspui fuel thresh div).1
          ≤ pmax * (1 - 1 / (hulaAux p pmax nspui fuel thresh div).2.1)
        ∧ 0 < (hulaAux p pmax nspui fuel thresh div).2.1 := by
  intro fuel
  induction fuel with
  | zero => intro thresh div hdiv hth; exact ⟨hth, hdiv⟩
  | succ m ih =>
    intro thresh div hdiv hth
    rw [hulaAux]
    split
    · dsimp only
      have hdiv2 : (0:ℚ) < 2 * div := by linarith
      have hstep : (if 0 < lobeErr p nspui thresh then thresh + pmax / (2 * div)
            else thresh - pmax / (2 * div)) ≤ pmax * (1 - 1 / (2 * div)) := by
        have hnn : 0 ≤ pmax / (2 * div) := le_of_lt (div_pos hpos hdiv2)
        have hup : thresh + pmax / (2 * div) ≤ pmax * (1 - 1 / (2 * div)) := by
          have halg : pmax * (1 - 1 / div) + pmax / (2 * div) = pmax * (1 - 1 / (2 * div)) := by
            field_simp
            ring
          linarith
        split
        · exact hup
        · linarith
      exact ih _ (2 * div) hdiv2 hstep
    · exact ⟨hth, hdiv⟩

/-- C3: cost evaluation is total.  When no index of the pulse response
exceeds the initial threshold, `get_cost` returns the sentinel cost 1; and
whenever the initial detection succeeds, the index set `p > thresh` stays
nonempty at every iteration of the refinement loop (the threshold always
stays strictly below the attained maximum), so the `main_lobe_ixs[0]` /
`main_lobe_ixs[-1]` lookups can never fail. -/
theorem cost_eval_total (h : List ℚ) (nspui mod_type : Nat) (dfe : Bool) (taps : Nat)
    (hn : 0 < nspui) :
    (detect0 (pulse h nspui) = [] → get_cost h nspui mod_type dfe taps = 1)
    ∧ (detect0 (pulse h nspui) ≠ [] →
        ∀ fuel : Nat,
          overIdxs (pulse h nspui)
            ((hulaAux (pulse h nspui) (listMax (pulse h nspui)) nspui fuel
                (listMax (pulse h nspui) / 2) 2).1) ≠ []) := by
  constructor
  · intro hdet
    simp only [get_cost, costEval]
    rw [hdet]
    simp
  · intro hdet fuel
    set p := pulse h nspui with hp
    set pmax := listMax p with hpm
    obtain ⟨i, hilen, hith⟩ := (overIdxs_ne_nil_iff p (pmax / 2)).mp hdet
    have hmem : p.getD i 0 ∈ p := by
      rw [List.getD_eq_getElem?_getD, List.getElem?_eq_getElem hilen]
      exact List.getElem_mem _
    have hle : p.getD i 0 ≤ pmax := le_listMax p _ hmem
    have hpos : 0 < pmax := by linarith
    have hstart : pmax / 2 ≤ pmax * (1 - 1 / 2) := by ring_nf; linarith
    obtain ⟨hb, hd⟩ := hulaAux_thresh_bound p pmax nspui hpos fuel (pmax / 2) 2
      (by norm_num) hstart
    have hlt : (hulaAux p pmax nspui fuel (pmax / 2) 2).1 < pmax := by
      have : pmax * (1 - 1 / (hulaAux p pmax nspui fuel (pmax / 2) 2).2.1) < pmax := by
        have hq : 0 < 1 / (hulaAux p pmax nspui fuel (pmax / 2) 2).2.1 := by positivity
        nlinarith
      linarith
    have hne : p ≠ [] := by
      intro hnil
      rw [hnil] at hilen
      simp at hilen
    obtain ⟨j, hjlen, hjval⟩ := List.mem_iff_getElem.mp (listMax_mem p hne)
    rw [overIdxs_ne_nil_iff]
    refine ⟨j, hjlen, ?_⟩
    rw [List.getD_eq_getElem?_getD, List.getElem?_eq_getElem hjlen]
    simpa [hjval] using hlt

/-- Witness for C3 at `h = [1]`, `nspui = 1`. -/
theorem cost_eval_total_witness :
    (0:Nat) < 1 ∧
    ((detect0 (pulse [1] 1) = [] → get_cost [1] 1 0 false 0 = 1)
      ∧ (detect0 (pulse [1] 1) ≠ [] →
          ∀ fuel : Nat,
            overIdxs (pulse [1] 1)
              ((hulaAux (pulse [1] 1) (listMax (pulse [1] 1)) 1 fuel
                  (listMax (pulse [1] 1) / 2) 2).1) ≠ [])) :=
  ⟨by norm_num, cost_eval_total [1] 1 0 false 0 (by norm_num)⟩

end PyBERT



namespace PyBERT

lemma fwdWalk_eq (p : List ℚ) (nspui : Nat) (hn : 1 ≤ nspui) :
    ∀ ix : Nat, fwdWalk p nspui ix =
      ∑ j ∈ Finset.range ((p.length - ix + nspui - 1) / nspui), |p.getD (ix + j * nspui) 0| := by
  have main : ∀ (n ix : Nat), p.length - ix ≤ n → fwdWalk p nspui ix =
      ∑ j ∈ Finset.range ((p.length - ix + nspui - 1) / nspui), |p.getD (ix + j * nspui) 0| := by
    intro n
    induction n with
    | zero =>
      intro ix hle
      have hix : p.length ≤ ix := by omega
      rw [fwdWalk, dif_neg (by omega)]
      have hc : (p.length - ix + nspui - 1) / nspui = 0 :=
        Nat.div_eq_of_lt (by omega)
      rw [hc]
      simp
    | succ m ih =>
      intro ix hle
      by_cases hix : ix < p.length
      · rw [fwdWalk, dif_pos ⟨hix, hn⟩]
        rw [ih (ix + nspui) (by omega)]
        have hc1 : (p.length - ix + nspui - 1) / nspui = (p.length - ix - 1) / nspui + 1 := by
          have he : p.length - ix + nspui - 1 = (p.length - ix - 1) + nspui := by omega
          rw [he, Nat.add_div_right _ (by omega : 0 < nspui)]
        have hc2 : (p.length - (ix + nspui) + nspui - 1) / nspui = (p.length - ix - 1) / nspui := by
          rcases le_or_lt (ix + nspui) p.length with hcase | hcase
          · have he : p.length - (ix + nspui) + nspui - 1 = p.length - ix - 1 := by omega
            rw [he]
          · have he : p.length - (ix + nspui) + nspui - 1 = nspui - 1 := by omega
            rw [he, Nat.div_eq_of_lt (by omega), Nat.div_eq_of_lt (by omega)]
        rw [hc1, hc2, Finset.sum_range_succ']
        have hterm : |p.getD (ix + 0 * nspui) 0| = |p.getD ix 0| := by norm_num
        rw [hterm]
        have hsum : ∀ j ∈ Finset.range ((p.length - ix - 1) / nspui),
            |p.getD (ix + (j + 1) * nspui) 0| = |p.getD (ix + nspui + j * nspui) 0| := by
          intro j _
          congr 1
          ring
        rw [Finset.sum_congr rfl hsum, add_comm]
      · rw [fwdWalk, dif_neg (by omega)]
        have hc : (p.length - ix + nspui - 1) / nspui = 0 :=
          Nat.div_eq_of_lt (by omega)
        rw [hc]
        simp
  intro ix
  exact main (p.length - ix) ix le_rfl

lemma backWalk_eq (p : List ℚ) (nspui : Nat) (hn : 1 ≤ nspui) (cp : ℤ) (hcp : 0 ≤ cp) :
    backWalk p nspui (cp - nspui) = backSpec p nspui cp := by
  have main : ∀ (n : Nat) (cp : ℤ), 0 ≤ cp → cp.toNat ≤ n →
      backWalk p nspui (cp - nspui) = backSpec p nspui cp := by
    intro n
    induction n with
    | zero =>
      intro cp hcp hle
      have hlt : cp < nspui := by omega
      rw [backWalk, dif_neg (by omega)]
      unfold backSpec
      rw [Nat.div_eq_of_lt (by omega)]
      simp
    | succ m ih =>
      intro cp hcp hle
      by_cases hge : (nspui : ℤ) ≤ cp
      · rw [backWalk, dif_pos ⟨by omega, hn⟩]
        rw [ih (cp - nspui) (by omega) (by omega)]
        have hc1 : cp.toNat / nspui = (cp - nspui).toNat / nspui + 1 := by
          have he : cp.toNat = (cp - nspui).toNat + nspui := by omega
          rw [he, Nat.add_div_right _ (by omega : 0 < nspui)]
        conv_rhs => rw [backSpec, hc1, Finset.sum_range_succ']
        rw [add_comm (∑ _k ∈ Finset.range ((cp - (nspui:ℤ)).toNat / nspui), _) _]
        congr 1
        · have hix : cp - (1 + ((0:ℕ):ℤ)) * nspui = cp - nspui := by
            push_cast
            ring
          rw [hix]
        · rw [backSpec]
          apply Finset.sum_congr rfl
          intro j _
          have hix : cp - (nspui:ℤ) - (1 + (j:ℤ)) * nspui
              = cp - (1 + ((j:ℕ) + 1 : ℕ)) * nspui := by
            push_cast
            ring
          rw [hix]
      · rw [backWalk, dif_neg (by omega)]
        unfold backSpec
        rw [Nat.div_eq_of_lt (by omega)]
        simp
  exact main cp.toNat cp hcp le_rfl

end PyBERT

namespace PyBERT

lemma getD_map_range (f : Nat → ℚ) (n j : Nat) :
    ((List.range n).map f).getD j 0 = if j < n then f j else 0 := by
  rcases lt_or_ge j n with hj | hj
  · rw [List.getD_eq_getElem?_getD, List.getElem?_map, List.getElem?_range hj]
    simp [hj]
  · rw [List.getD_eq_getElem?_getD, List.getElem?_map, List.getElem?_eq_none (by simpa using hj)]
    simp only [Option.map_none', Option.getD_none]
    rw [if_neg (Nat.not_lt.mpr hj)]

lemma subFrom_length (p : List ℚ) (start : ℤ) (v : ℚ) :
    (subFrom p start v).length = p.length := by
  simp [subFrom]

lemma subFrom_getD_lt (p : List ℚ) (start : ℤ) (v : ℚ) (j : Nat)
    (hstart : 0 ≤ start) (hj : (j : ℤ) < start) :
    (subFrom p start v).getD j 0 = p.getD j 0 := by
  unfold subFrom
  rw [getD_map_range]
  rw [if_neg (by omega : ¬ start < 0)]
  split
  · rw [if_neg (by omega)]
  · rw [List.getD_eq_default]
    omega

lemma dfeAux_length (nspui : Nat) (cp : ℤ) :
    ∀ (r i : Nat) (p : List ℚ), (dfeAux nspui cp i r p).length = p.length := by
  intro r
  induction r with
  | zero => intro i p; rfl
  | succ m ih =>
    intro i p
    rw [dfeAux]
    rw [ih]
    split
    · rw [subFrom_length]
    · rfl

lemma dfeAux_getD_frame (nspui : Nat) (cp : ℤ) (hcp : 0 ≤ cp) :
    ∀ (r i : Nat) (p : List ℚ) (j : Nat), (j : ℤ) < cp + i * nspui + (nspui / 2 : Nat) →
      (dfeAux nspui cp i r p).getD j 0 = p.getD j 0 := by
  intro r
  induction r with
  | zero => intro i p j _; rfl
  | succ m ih =>
    intro i p j hj
    rw [dfeAux]
    rw [ih (i + 1) _ j (by push_cast; push_cast at hj; nlinarith [Int.ofNat_nonneg nspui])]
    split
    · exact subFrom_getD_lt p _ _ j (by positivity) hj
    · rfl

lemma dfeSub_getD_frame (p : List ℚ) (nspui : Nat) (cp : ℤ) (nTaps : Nat) (j : Nat)
    (hcp : 0 ≤ cp) (hj : (j : ℤ) < cp + (nspui / 2 : Nat)) :
    (dfeSub p nspui cp nTaps).getD j 0 = p.getD j 0 := by
  unfold dfeSub
  exact dfeAux_getD_frame nspui cp hcp nTaps 0 p j (by push_cast; push_cast at hj; linarith)

end PyBERT


namespace PyBERT

lemma clockPos_nrz_nonneg (p : List ℚ) (nspui : Nat) : 0 ≤ clockPos p nspui 0 := by
  unfold clockPos
  rw [if_neg (by norm_num)]
  exact Int.ediv_nonneg (by positivity) (by norm_num)

lemma get_cost_nrz (h : List ℚ) (nspui : Nat) (dfe : Bool) (taps : Nat)
    (hdet : detect0 (pulse h nspui) ≠ []) :
    get_cost h nspui 0 dfe taps =
      backWalk (pulse h nspui) nspui (clockPos (pulse h nspui) nspui 0 - nspui)
        + (if dfe then 0
           else fwdWalk (pulse h nspui) nspui (clockPos (pulse h nspui) nspui 0 + nspui).toNat)
        - pyGet (if dfe then dfeSub (pulse h nspui) nspui (clockPos (pulse h nspui) nspui 0) taps
                 else pulse h nspui)
            (clockPos (pulse h nspui) nspui 0) := by
  have hne : (detect0 (pulse h nspui)).isEmpty = false := List.isEmpty_eq_false.mpr hdet
  simp only [get_cost, costEval, hne, Bool.false_eq_true, if_false]
  norm_num

lemma get_cost_duo (h : List ℚ) (nspui : Nat) (dfe : Bool) (taps : Nat)
    (hdet : detect0 (pulse h nspui) ≠ []) :
    get_cost h nspui 1 dfe taps =
      backWalk (pulse h nspui) nspui (clockPos (pulse h nspui) nspui 1 - nspui)
        + (if dfe then 0
           else fwdWalk (pulse h nspui) nspui (clockPos (pulse h nspui) nspui 1 + 2 * nspui).toNat)
        - pyGet (if dfe then dfeSub (pulse h nspui) nspui (clockPos (pulse h nspui) nspui 1) taps
                 else pulse h nspui)
            (clockPos (pulse h nspui) nspui 1)
        - pyGet (if dfe then dfeSub (pulse h nspui) nspui (clockPos (pulse h nspui) nspui 1) taps
                 else pulse h nspui)
            (clockPos (pulse h nspui) nspui 1 + nspui)
        + 2 * |pyGet (if dfe then dfeSub (pulse h nspui) nspui (clockPos (pulse h nspui) nspui 1) taps
                      else pulse h nspui)
                  (clockPos (pulse h nspui) nspui 1 + nspui)
                - pyGet (if dfe then dfeSub (pulse h nspui) nspui (clockPos (pulse h nspui) nspui 1) taps
                        else pulse h nspui)
                    (clockPos (pulse h nspui) nspui 1)| := by
  have hne : (detect0 (pulse h nspui)).isEmpty = false := List.isEmpty_eq_false.mpr hdet
  simp only [get_cost, costEval, hne, Bool.false_eq_true, if_false]
  norm_num

end PyBERT

namespace PyBERT

/-- C1 (amended): with a detected main lobe and `nspui ≥ 2`, the NRZ cost is
the claimed ISI sums minus the main-lobe sample of the unmutated pulse
response; the duo-binary cost subtracts both clock samples of the (with DFE,
mutated) pulse response and adds twice their absolute difference, its
forward ISI walk starting two unit intervals after `clock_pos`; and the DFE
subtractions never touch samples below `clock_pos + ⌊nspui/2⌋`, in
particular never the main-lobe sample itself. -/
theorem cost_characterization (h : List ℚ) (nspui : Nat) (dfe : Bool) (taps : Nat)
    (hn : 2 ≤ nspui)
    (hdet : detect0 (pulse h nspui) ≠ [])
    (hduo : 0 ≤ clockPos (pulse h nspui) nspui 1) :
    (get_cost h nspui 0 dfe taps =
        backSpec (pulse h nspui) nspui (clockPos (pulse h nspui) nspui 0)
          + (if dfe then 0 else fwdSpec (pulse h nspui) nspui (clockPos (pulse h nspui) nspui 0))
          - (pulse h nspui).getD (clockPos (pulse h nspui) nspui 0).toNat 0)
    ∧ (get_cost h nspui 1 dfe taps =
        (let q := if dfe then dfeSub (pulse h nspui) nspui (clockPos (pulse h nspui) nspui 1) taps
                  else pulse h nspui
         backSpec (pulse h nspui) nspui (clockPos (pulse h nspui) nspui 1)
          + (if dfe then 0
             else fwdSpec (pulse h nspui) nspui (clockPos (pulse h nspui) nspui 1 + nspui))
          - q.getD (clockPos (pulse h nspui) nspui 1).toNat 0
          - q.getD (clockPos (pulse h nspui) nspui 1 + nspui).toNat 0
          + 2 * |q.getD (clockPos (pulse h nspui) nspui 1 + nspui).toNat 0
                  - q.getD (clockPos (pulse h nspui) nspui 1).toNat 0|))
    ∧ (∀ j : Nat, (j : ℤ) < clockPos (pulse h nspui) nspui 1 + (nspui / 2 : Nat) →
        (dfeSub (pulse h nspui) nspui (clockPos (pulse h nspui) nspui 1) taps).getD j 0
          = (pulse h nspui).getD j 0) := by
  have hn1 : 1 ≤ nspui := by omega
  have hcp0 : 0 ≤ clockPos (pulse h nspui) nspui 0 := clockPos_nrz_nonneg (pulse h nspui) nspui
  refine ⟨?_, ?_, ?_⟩
  · rw [get_cost_nrz h nspui dfe taps hdet]
    rw [backWalk_eq (pulse h nspui) nspui hn1 (clockPos (pulse h nspui) nspui 0) hcp0]
    rw [fwdWalk_eq (pulse h nspui) nspui hn1 ((clockPos (pulse h nspui) nspui 0 + nspui).toNat)]
    rw [pyGet, if_pos hcp0]
    cases dfe with
    | false => rfl
    | true =>
      simp only [if_true]
      rw [dfeSub_getD_frame (pulse h nspui) nspui (clockPos (pulse h nspui) nspui 0) taps
            (clockPos (pulse h nspui) nspui 0).toNat hcp0
            (by rw [Int.toNat_of_nonneg hcp0]; omega)]
  · rw [get_cost_duo h nspui dfe taps hdet]
    rw [backWalk_eq (pulse h nspui) nspui hn1 (clockPos (pulse h nspui) nspui 1) hduo]
    have hfs : clockPos (pulse h nspui) nspui 1 + 2 * (nspui : ℤ)
        = clockPos (pulse h nspui) nspui 1 + nspui + nspui := by ring
    rw [hfs]
    rw [fwdWalk_eq (pulse h nspui) nspui hn1
          ((clockPos (pulse h nspui) nspui 1 + nspui + nspui).toNat)]
    have hq1 : 0 ≤ clockPos (pulse h nspui) nspui 1 + (nspui : ℤ) := by omega
    rw [pyGet, if_pos hduo, pyGet, if_pos hq1]
    rfl
  · intro j hj
    exact dfeSub_getD_frame (pulse h nspui) nspui (clockPos (pulse h nspui) nspui 1) taps j hduo hj

end PyBERT

namespace PyBERT

lemma ce_pulse : pulse [0, 0, 1, 1, 2, 2, 1, -1, 1, -1] 2 = [0, 0, 1, 2, 3, 4, 3, 0, 0, 0] := by
  norm_num [pulse, cumsum, List.scanl, List.range_succ, List.getD]

lemma ce_listMax : listMax [(0:ℚ), 0, 1, 2, 3, 4, 3, 0, 0, 0] = 4 := by
  norm_num [listMax, List.foldr, max_def]

lemma ce_detect0 : detect0 [(0:ℚ), 0, 1, 2, 3, 4, 3, 0, 0, 0] = [4, 5, 6] := by
  norm_num [detect0, ce_listMax, overIdxs, List.range_succ, List.getD]

lemma ce_mainLobe : mainLobe [(0:ℚ), 0, 1, 2, 3, 4, 3, 0, 0, 0] 2 = [4, 5, 6] := by
  have hth : finalThresh [(0:ℚ), 0, 1, 2, 3, 4, 3, 0, 0, 0] 2 = 2 := by
    unfold finalThresh
    rw [ce_listMax]
    rw [hulaAux_exit _ _ _ _ _ _ ?_]
    · norm_num
    · have herr : lobeErr [(0:ℚ), 0, 1, 2, 3, 4, 3, 0, 0, 0] 2 ((4:ℚ) / 2) = 0 := by
        have hov : overIdxs [(0:ℚ), 0, 1, 2, 3, 4, 3, 0, 0, 0] (2:ℚ) = [4, 5, 6] := by
          norm_num [overIdxs, List.range_succ, List.getD]
        norm_num [lobeErr, hov]
      intro hcontra
      exact hcontra.1 herr
  unfold mainLobe
  rw [hth]
  norm_num [overIdxs, List.range_succ, List.getD]

lemma ce_clockPos : clockPos [(0:ℚ), 0, 1, 2, 3, 4, 3, 0, 0, 0] 2 1 = 4 := by
  norm_num [clockPos, ce_mainLobe]

end PyBERT

namespace PyBERT

lemma ce_backWalk : backWalk [(0:ℚ), 0, 1, 2, 3, 4, 3, 0, 0, 0] 2 2 = 1 := by
  rw [backWalk, dif_pos (by norm_num)]
  rw [show ((2:ℤ) - ((2:ℕ):ℤ)) = 0 by norm_num]
  rw [backWalk, dif_pos (by norm_num)]
  rw [show ((0:ℤ) - ((2:ℕ):ℤ)) = -2 by norm_num]
  rw [backWalk, dif_neg (by norm_num)]
  norm_num [List.getD, show Int.toNat 2 = 2 from rfl, show Int.toNat 0 = 0 from rfl]

lemma ce_dfeSub : dfeSub [(0:ℚ), 0, 1, 2, 3, 4, 3, 0, 0, 0] 2 4 1
    = [0, 0, 1, 2, 3, 1, 0, -3, -3, -3] := by
  norm_num [dfeSub, dfeAux, subFrom, pyGet, List.range_succ, List.getD,
    show Int.toNat 6 = 6 from rfl]

lemma ce_code_cost : get_cost [0, 0, 1, 1, 2, 2, 1, -1, 1, -1] 2 1 true 1 = 4 := by
  have hdet : detect0 (pulse [0, 0, 1, 1, 2, 2, 1, -1, 1, -1] 2) ≠ [] := by
    rw [ce_pulse, ce_detect0]
    simp
  rw [get_cost_duo _ _ _ _ hdet, ce_pulse, ce_clockPos]
  rw [show ((4:ℤ) - ((2:ℕ):ℤ)) = 2 by norm_num, ce_backWalk, ce_dfeSub]
  norm_num [pyGet, List.getD, show Int.toNat 4 = 4 from rfl, show Int.toNat 6 = 6 from rfl]

lemma ce_claim_cost : cost_claim_C1 [0, 0, 1, 1, 2, 2, 1, -1, 1, -1] 2 1 true 1 = -5 := by
  simp only [cost_claim_C1]
  rw [ce_pulse, ce_clockPos]
  norm_num [backSpec, fwdSpec, dfeClaimAux, subLater, pyGet, Finset.sum_range_succ,
    List.range_succ, List.getD, show Int.toNat 4 = 4 from rfl, show Int.toNat 6 = 6 from rfl,
    show Int.toNat 2 = 2 from rfl, show Int.toNat 0 = 0 from rfl]

end PyBERT

namespace PyBERT

/-- Counterexample to C1 as stated: on a concrete duo-binary input with the
DFE tuning flag set, subtracting the cancelled post-cursor sample from all
strictly later samples (the literal claim) predicts cost -5, while the code
(which subtracts from half a unit interval before the cancelled sample on,
the cancelled sample itself included) returns 4. -/
theorem cost_claim_C1_counterexample :
    cost_claim_C1 [0, 0, 1, 1, 2, 2, 1, -1, 1, -1] 2 1 true 1
      ≠ get_cost [0, 0, 1, 1, 2, 2, 1, -1, 1, -1] 2 1 true 1 := by
  rw [ce_claim_cost, ce_code_cost]
  norm_num

/-- Witness for the amended C1 on the same concrete input (NRZ conjunct). -/
theorem cost_characterization_witness :
    ((2:ℕ) ≤ 2 ∧ detect0 (pulse [0, 0, 1, 1, 2, 2, 1, -1, 1, -1] 2) ≠ []
      ∧ 0 ≤ clockPos (pulse [0, 0, 1, 1, 2, 2, 1, -1, 1, -1] 2) 2 1)
    ∧ get_cost [0, 0, 1, 1, 2, 2, 1, -1, 1, -1] 2 0 true 1 =
        backSpec (pulse [0, 0, 1, 1, 2, 2, 1, -1, 1, -1] 2) 2
            (clockPos (pulse [0, 0, 1, 1, 2, 2, 1, -1, 1, -1] 2) 2 0)
          + (if (true : Bool) then 0
             else fwdSpec (pulse [0, 0, 1, 1, 2, 2, 1, -1, 1, -1] 2) 2
                (clockPos (pulse [0, 0, 1, 1, 2, 2, 1, -1, 1, -1] 2) 2 0))
          - (pulse [0, 0, 1, 1, 2, 2, 1, -1, 1, -1] 2).getD
              (clockPos (pulse [0, 0, 1, 1, 2, 2, 1, -1, 1, -1] 2) 2 0).toNat 0 :=
  ⟨⟨by norm_num,
    by rw [ce_pulse, ce_detect0]; simp,
    by rw [ce_pulse, ce_clockPos]; norm_num⟩,
    (cost_characterization [0, 0, 1, 1, 2, 2, 1, -1, 1, -1] 2 true 1 (by norm_num)
      (by rw [ce_pulse, ce_detect0]; simp)
      (by rw [ce_pulse, ce_clockPos]; norm_num)).1⟩

end PyBERT
